import Mathlib

/-!
Verification of the Othello engine in `othello.go` (package `othello`).

The game core is embedded shallowly: the Go structs `Piece`, `Position`,
`Board`, `Move` become Lean structures; pointer-mutating methods become
functions returning the updated value.  The unbounded capture-scan loop of
`findCaptures` is embedded with an explicit fuel counter; fuel exhaustion
models the trailing `panic("impossible")` of the Go loop and is proved
unreachable.  The fields `Board.EvalScore` and `Board.Moves` of the Go
struct are caches written by `ExpandEvalTree`/`GenMovedBoards`; they are
modeled as the explicit `evalScore` argument and result of
`ExpandEvalTree`, and as the score lists it passes to `GetBestEvalIndex`.
-/

namespace Othello

/-- Piece values of the source: Empty, Black (Dark) and White (Light). -/
inductive Piece where
  | Empty : Piece
  | Black : Piece
  | White : Piece
deriving DecidableEq, Repr

/-- `Opposite` of a piece: White and Black swap, Empty maps to Empty. -/
def Piece.Opposite : Piece → Piece
  | .White => .Black
  | .Black => .White
  | .Empty => .Empty

/-- A position on the board: `x` is `p[0]`, `y` is `p[1]` of the Go array.
Valid board coordinates are 1-8 (not 0-7). -/
structure Position where
  x : Int
  y : Int
deriving DecidableEq, Repr

/-- `Valid` returns true iff this is a valid board position. -/
def Position.valid (p : Position) : Bool :=
  (1 ≤ p.x && p.x ≤ 8) && (1 ≤ p.y && p.y ≤ 8)

/-- `Pass` returns true iff this move position represents a pass. -/
def Position.Pass (p : Position) : Bool :=
  !p.valid

/-- A board: the 8x8 piece grid plus whose turn is next.  The Go struct's
`EvalScore`/`Moves` caches are modeled as explicit arguments of the search
functions below. -/
structure Board where
  Pieces : Fin 8 → Fin 8 → Piece
  Next : Piece

/-- Row/column index of a coordinate: the Go code indexes `Pieces[i-1]`.
The `% 8` makes the wrapper total; reachable code only indexes valid
positions, where `(i-1).toNat < 8` and the `% 8` is the identity. -/
def coordIdx (i : Int) : Fin 8 :=
  ⟨(i - 1).toNat % 8, Nat.mod_lt _ (by norm_num)⟩

/-- `Get` returns the piece at a given position (`b.Pieces[p[1]-1][p[0]-1]`). -/
def Board.Get (b : Board) (p : Position) : Piece :=
  b.Pieces (coordIdx p.y) (coordIdx p.x)

/-- Writing through `At`: `*b.At(p) = pc` as a functional update. -/
def Board.setAt (b : Board) (p : Position) (pc : Piece) : Board :=
  { b with Pieces := fun r c => if r = coordIdx p.y ∧ c = coordIdx p.x then pc else b.Pieces r c }

/-- The grid cell a position addresses (row index first, as the Go array). -/
def posCell (p : Position) : Fin 8 × Fin 8 :=
  (coordIdx p.y, coordIdx p.x)

/-- A move: the target position and the piece being placed.  The Go field
`MovedBoard` is a cache filled by `GenMovedBoards`; it is modeled by the
boards `ExpandEvalTree` computes below. -/
structure Move where
  Where : Position
  As : Piece
deriving DecidableEq, Repr

/-- The eight scan directions, in the order the `init` loop of the source
generates them (x outer from -1 to 1, y inner, skipping (0,0)). -/
def dirs : List Position :=
  [⟨-1, -1⟩, ⟨-1, 0⟩, ⟨-1, 1⟩, ⟨0, -1⟩, ⟨0, 1⟩, ⟨1, -1⟩, ⟨1, 0⟩, ⟨1, 1⟩]

/-- `translate` moves a position one step in a direction. -/
def translate (p d : Position) : Position :=
  ⟨p.x + d.x, p.y + d.y⟩

/-- The loop body of `findCaptures`, with fuel.  `none` is the
`panic("impossible")` after the loop: the loop in the source has no break,
so the panic is reached exactly when the loop fails to return — proved
impossible within 8 iterations from a valid start (claim C10). -/
def findCapturesAux (b : Board) (a : Piece) (d : Position) :
    Position → List Position → Nat → Option (List Position)
  | _, _, 0 => none
  | p, caps, fuel + 1 =>
    if (translate p d).valid = false then some []
    else if b.Get (translate p d) = a then some caps
    else if b.Get (translate p d) = Piece.Empty then some []
    else findCapturesAux b a d (translate p d) (caps ++ [translate p d]) fuel

/-- `findCaptures`: walk outward from the move's target in direction `d`,
collecting the run of cells that are neither the mover's color nor Empty.
Fuel 9 is enough for every start (8 from a valid one); the `getD []`
default is never taken. -/
def findCaptures (b : Board) (m : Move) (d : Position) : List Position :=
  (findCapturesAux b m.As d m.Where [] 9).getD []

/-- The error taxonomy of the source's `fmt.Errorf` messages. -/
inductive IllegalMove where
  | occupied : IllegalMove
  | noCaptures : IllegalMove
  | illegalPass : IllegalMove
deriving DecidableEq, Repr

instance {ε α : Type} [DecidableEq ε] [DecidableEq α] : DecidableEq (Except ε α) := fun a b =>
  match a, b with
  | .ok x, .ok y => decidable_of_iff (x = y) (by simp)
  | .error x, .error y => decidable_of_iff (x = y) (by simp)
  | .ok _, .error _ => isFalse (by simp)
  | .error _, .ok _ => isFalse (by simp)

/-- `tryMove` tries a non-PASS move without executing it: occupied target
fails, then captures are accumulated over the eight directions, and an
empty union fails. -/
def tryMove (b : Board) (m : Move) : Except IllegalMove (List Position) :=
  if b.Get m.Where ≠ Piece.Empty then .error .occupied
  else
    let captures := dirs.foldl (fun acc d => acc ++ findCaptures b m d) []
    if captures.length < 1 then .error .noCaptures
    else .ok captures

/-- The union of captures over the eight directions, written as a flat
concatenation (the fold inside `tryMove` is proved equal to it). -/
def allCaptures (b : Board) (m : Move) : List Position :=
  (dirs.map (fun d => findCaptures b m d)).flatten

/-- The loop bounds of `ValidMoves`: both coordinates scan 1..8. -/
def nums18 : List Int :=
  [1, 2, 3, 4, 5, 6, 7, 8]

/-- `ValidMoves` scans the board row-major (y outer, x inner, both 1..8)
and keeps the moves `tryMove` accepts. -/
def ValidMoves (b : Board) : List Move :=
  nums18.foldl (fun acc y =>
    nums18.foldl (fun acc2 x =>
      match tryMove b ⟨⟨x, y⟩, b.Next⟩ with
      | .ok _ => acc2 ++ [(⟨⟨x, y⟩, b.Next⟩ : Move)]
      | .error _ => acc2) acc) []

/-- `realMove` executes a move that is not a PASS: on success every
captured position plus the target is set to the mover's color. -/
def realMove (b : Board) (m : Move) : Except IllegalMove Board :=
  match tryMove b m with
  | .error e => .error e
  | .ok captures => .ok ((captures ++ [m.Where]).foldl (fun bb p => bb.setAt p m.As) b)

/-- `Exec`: run a move on a board, returning the updated board and the
error, if any.  The Go method mutates `b` through a pointer and returns
`(b, err)`; here the first component is the board's state after the call
(unchanged on every error path, since the error returns precede all
writes and the `Next` flip). -/
def Exec (b : Board) (m : Move) : Board × Option IllegalMove :=
  if m.Where.Pass = false then
    match realMove b m with
    | .error e => (b, some e)
    | .ok b1 => ({ b1 with Next := b1.Next.Opposite }, none)
  else
    if (ValidMoves b).length > 0 then (b, some .illegalPass)
    else ({ b with Next := b.Next.Opposite }, none)

/-- `GetMovedBoard` runs `Exec` on a value copy and returns the copy,
ignoring the error, exactly as the source does. -/
def GetMovedBoard (b : Board) (m : Move) : Board :=
  (Exec b m).1

/-- The per-piece contribution of `Board.Eval` (the disc-count switch). -/
def discDelta : Piece → Int
  | .White => -1
  | .Black => 1
  | .Empty => 0

/-- `Eval`: the disc-count score (#Black - #White) the source stores into
`b.EvalScore`. -/
def Board.Eval (b : Board) : Int :=
  (List.finRange 8).foldl (fun e y =>
    (List.finRange 8).foldl (fun e2 x => e2 + discDelta (b.Pieces y x)) e) 0

/-- The rows of the global `ScoreMap` set in `init`. -/
def ScoreMapRows : List (List Int) :=
  [[15, 2, 5, 5, 5, 5, 2, 15],
   [2, 0, 1, 1, 1, 1, 0, 2],
   [5, 1, 1, 1, 1, 1, 1, 5],
   [5, 1, 1, 1, 1, 1, 1, 5],
   [5, 1, 1, 1, 1, 1, 1, 5],
   [5, 1, 1, 1, 1, 1, 1, 5],
   [2, 0, 1, 1, 1, 1, 0, 2],
   [15, 2, 5, 5, 5, 5, 2, 15]]

/-- `ScoreMap[y][x]`. -/
def ScoreMap (y x : Fin 8) : Int :=
  (ScoreMapRows.getD y.val []).getD x.val 0

/-- The per-piece contribution of `GetEval` at weight `w`. -/
def scoreDelta (w : Int) : Piece → Int
  | .White => -w
  | .Black => w
  | .Empty => 0

/-- `GetEval`: the ScoreMap-weighted positional score. -/
def Board.GetEval (b : Board) : Int :=
  (List.finRange 8).foldl (fun e y =>
    (List.finRange 8).foldl (fun e2 x => e2 + scoreDelta (ScoreMap y x) (b.Pieces y x)) e) 0

/-- The scan loop shared by both branches of `GetBestEvalIndex`: `i` is the
position of the head of the remaining list, `m` the best score so far,
`idx` its index; only `gt s m` (strictly better) replaces the best. -/
def bestScan (gt : Int → Int → Bool) : List Int → Nat → Int → Nat → Nat
  | [], _, _, idx => idx
  | s :: rest, i, m, idx =>
    if gt s m then bestScan gt rest (i + 1) s i else bestScan gt rest (i + 1) m idx

/-- `GetBestEvalIndex`: index of the best attached score for a player
(maximum for Black, minimum otherwise), -1 for an empty list.  The scores
are the `MovedBoard.EvalScore` fields of the Go move list. -/
def GetBestEvalIndex (forPlayer : Piece) (scores : List Int) : Int :=
  match scores with
  | [] => -1
  | s :: rest =>
    if forPlayer = Piece.Black then
      ((bestScan (fun a b => decide (a > b)) rest 1 s 0 : Nat) : Int)
    else
      ((bestScan (fun a b => decide (a < b)) rest 1 s 0 : Nat) : Int)

/-- `ExpandEvalTree`: returns the value of `b.EvalScore` after the call.
`evalScore` is the field's value on entry (the no-legal-move branch of the
source returns without writing it).  Each child board is evaluated with
`Eval` before the recursive call, as `GenMovedBoards` does. -/
def ExpandEvalTree (b : Board) (evalScore : Int) : Nat → Int
  | 0 => b.Eval
  | depth + 1 =>
    let moves := ValidMoves b
    if moves = [] then evalScore
    else
      let scores := moves.map (fun m =>
        ExpandEvalTree (GetMovedBoard b m) (GetMovedBoard b m).Eval depth)
      let bestIndex := GetBestEvalIndex b.Next scores
      if bestIndex < 0 then b.Eval else scores.getD bestIndex.toNat 0

/-- Cells `1..k` steps out from `t` in direction `d`. -/
def ray (t d : Position) (k : Nat) : Position :=
  ⟨t.x + k * d.x, t.y + k * d.y⟩

/-- The first `n` cells of the ray (steps 1 through n). -/
def runList (t d : Position) (n : Nat) : List Position :=
  (List.range n).map (fun k => ray t d (k + 1))

/-- Modelled from the spec: a direction yields a capture run of length `n`
when the `n` cells out from the target are opponent-colored and the next
cell holds the mover's own color. -/
def GoodRun (b : Board) (m : Move) (d : Position) (n : Nat) : Prop :=
  1 ≤ n ∧
  (∀ k < n, (ray m.Where d (k + 1)).valid = true ∧
    b.Get (ray m.Where d (k + 1)) = m.As.Opposite) ∧
  (ray m.Where d (n + 1)).valid = true ∧ b.Get (ray m.Where d (n + 1)) = m.As

instance (b : Board) (m : Move) (d : Position) (n : Nat) : Decidable (GoodRun b m d n) := by
  unfold GoodRun
  exact inferInstance

/-- Modelled from the spec: the row-major enumeration of all 64 board
positions (y outer, x inner, both 1..8). -/
def allPositionsRowMajor : List Position :=
  (nums18.map (fun y => nums18.map (fun x => (⟨x, y⟩ : Position)))).flatten

/-- Whether a `tryMove` result is a success. -/
def exceptOk {ε α : Type} : Except ε α → Bool
  | .ok _ => true
  | .error _ => false

/-- Number of cells of the grid holding a given piece. -/
def countPieces (b : Board) (pc : Piece) : Nat :=
  (Finset.univ.filter (fun c : Fin 8 × Fin 8 => b.Pieces c.1 c.2 = pc)).card

/-- Modelled from the spec: maximum of a list of scores (0 for []). -/
def maxOf : List Int → Int
  | [] => 0
  | x :: xs => xs.foldl max x

/-- Modelled from the spec: minimum of a list of scores (0 for []). -/
def minOf : List Int → Int
  | [] => 0
  | x :: xs => xs.foldl min x

/-- Modelled from the spec: the minimax value of §4.4 — at depth 0 the
static evaluation; with no legal moves the position's own static
evaluation; otherwise the extremal child value (Dark maximizes, Light
minimizes). -/
def minimaxSpec (b : Board) : Nat → Int
  | 0 => b.Eval
  | depth + 1 =>
    let moves := ValidMoves b
    if moves = [] then b.Eval
    else
      let vals := moves.map (fun m => minimaxSpec (GetMovedBoard b m) depth)
      if b.Next = Piece.Black then maxOf vals else minOf vals

/-- The moves one iteration of the `ValidMoves` scan contributes at cell
(x, y): the singleton candidate if `tryMove` accepts it, nothing else. -/
def movesAt (b : Board) (y x : Int) : List Move :=
  match tryMove b ⟨⟨x, y⟩, b.Next⟩ with
  | .ok _ => [⟨⟨x, y⟩, b.Next⟩]
  | .error _ => []

/-- Whether the side to move may legally place at `p`. -/
def legalAt (b : Board) (p : Position) : Bool :=
  exceptOk (tryMove b ⟨p, b.Next⟩)

instance : DecidableEq Board := fun a b =>
  decidable_of_iff (a.Pieces = b.Pieces ∧ a.Next = b.Next) (by cases a; cases b; simp)

/-- The all-Empty board with Black to move (no legal moves exist). -/
def emptyBoard : Board :=
  { Pieces := fun _ _ => Piece.Empty, Next := Piece.Black }

/-- The scenario board of spec §8: a single Black disc at (4,4), a single
White disc at (5,4), Black to move. -/
def scenarioBoard : Board :=
  { Pieces := fun r c =>
      if r.val = 3 ∧ c.val = 3 then Piece.Black
      else if r.val = 3 ∧ c.val = 4 then Piece.White
      else Piece.Empty,
    Next := Piece.Black }

end Othello

namespace Othello

theorem valid_iff (p : Position) :
    p.valid = true ↔ ((1 ≤ p.x ∧ p.x ≤ 8) ∧ (1 ≤ p.y ∧ p.y ≤ 8)) := by
  simp [Position.valid, Bool.and_eq_true, decide_eq_true_eq]

theorem coordIdx_val (i : Int) (h1 : 1 ≤ i) (h2 : i ≤ 8) :
    (coordIdx i).val = (i - 1).toNat := by
  simp only [coordIdx]
  exact Nat.mod_eq_of_lt (by omega)

theorem coordIdx_inj (i j : Int) (hi1 : 1 ≤ i) (hi2 : i ≤ 8) (hj1 : 1 ≤ j) (hj2 : j ≤ 8)
    (h : coordIdx i = coordIdx j) : i = j := by
  have hv := congrArg Fin.val h
  rw [coordIdx_val i hi1 hi2, coordIdx_val j hj1 hj2] at hv
  omega

theorem posCell_inj (p q : Position) (hp : p.valid = true) (hq : q.valid = true)
    (h : posCell p = posCell q) : p = q := by
  rw [valid_iff] at hp hq
  rw [posCell, posCell, Prod.ext_iff] at h
  cases p; cases q
  simp only [Position.mk.injEq]
  constructor
  · exact coordIdx_inj _ _ hp.1.1 hp.1.2 hq.1.1 hq.1.2 h.2
  · exact coordIdx_inj _ _ hp.2.1 hp.2.2 hq.2.1 hq.2.2 h.1

theorem Get_setAt (b : Board) (p : Position) (pc : Piece) (q : Position) :
    (b.setAt p pc).Get q = if posCell q = posCell p then pc else b.Get q := by
  by_cases h : posCell q = posCell p
  · rw [if_pos h]
    rw [posCell, posCell, Prod.ext_iff] at h
    simp only [Board.setAt, Board.Get]
    rw [if_pos ⟨h.1, h.2⟩]
  · rw [if_neg h]
    rw [posCell, posCell, Prod.ext_iff] at h
    simp only [Board.setAt, Board.Get]
    rw [if_neg]
    intro hc
    exact h ⟨hc.1, hc.2⟩

theorem opp_ne_self {a : Piece} (h : a ≠ Piece.Empty) : a.Opposite ≠ a := by
  cases a
  · exact absurd rfl h
  · decide
  · decide

theorem opp_ne_empty {a : Piece} (h : a ≠ Piece.Empty) : a.Opposite ≠ Piece.Empty := by
  cases a
  · exact absurd rfl h
  · decide
  · decide

theorem eq_opp_iff {a pc : Piece} (h : a ≠ Piece.Empty) :
    pc = a.Opposite ↔ (pc ≠ a ∧ pc ≠ Piece.Empty) := by
  cases a
  · exact absurd rfl h
  · cases pc <;> simp [Piece.Opposite]
  · cases pc <;> simp [Piece.Opposite]

theorem ray_zero (t d : Position) : ray t d 0 = t := by
  cases t
  simp [ray]

theorem translate_ray (t d : Position) (k : Nat) :
    translate (ray t d k) d = ray t d (k + 1) := by
  cases t; cases d
  simp only [translate, ray, Position.mk.injEq]
  constructor <;> push_cast <;> ring

theorem ray_valid_bound {t d : Position} (hd : d ∈ dirs) (ht : t.valid = true)
    {k : Nat} (hk : (ray t d k).valid = true) : k ≤ 7 := by
  rw [valid_iff] at ht hk
  fin_cases hd <;> simp only [ray] at hk <;> push_cast at hk <;> omega

theorem ray_ne_start {t d : Position} (hd : d ∈ dirs) {k : Nat} (h1 : 1 ≤ k) :
    ray t d k ≠ t := by
  intro h
  cases t
  fin_cases hd <;> simp only [ray, Position.mk.injEq] at h <;> push_cast at h <;> omega

theorem ray_inj {t d : Position} (hd : d ∈ dirs) {k1 k2 : Nat}
    (h : ray t d k1 = ray t d k2) : k1 = k2 := by
  fin_cases hd <;> simp only [ray, Position.mk.injEq] at h <;> push_cast at h <;> omega

theorem ray_cross {t d1 d2 : Position} (hd1 : d1 ∈ dirs) (hd2 : d2 ∈ dirs)
    {k1 k2 : Nat} (h1 : 1 ≤ k1) (h2 : 1 ≤ k2) (h : ray t d1 k1 = ray t d2 k2) :
    d1 = d2 := by
  fin_cases hd1 <;> fin_cases hd2 <;>
    first
    | rfl
    | (exfalso; cases t; simp only [ray, Position.mk.injEq] at h; push_cast at h; omega)

end Othello

namespace Othello

theorem findCapturesAux_mono (b : Board) (a : Piece) (d : Position) :
    ∀ (fuel fuel' : Nat) (p : Position) (acc r : List Position),
      fuel ≤ fuel' → findCapturesAux b a d p acc fuel = some r →
      findCapturesAux b a d p acc fuel' = some r := by
  intro fuel
  induction fuel with
  | zero =>
    intro fuel' p acc r _ h
    simp [findCapturesAux] at h
  | succ f ih =>
    intro fuel' p acc r hle h
    obtain ⟨f', rfl⟩ : ∃ f', fuel' = f' + 1 := ⟨fuel' - 1, by omega⟩
    simp only [findCapturesAux] at h ⊢
    by_cases hv : (translate p d).valid = false
    · rw [if_pos hv] at h ⊢; exact h
    · rw [if_neg hv] at h ⊢
      by_cases ha : b.Get (translate p d) = a
      · rw [if_pos ha] at h ⊢; exact h
      · rw [if_neg ha] at h ⊢
        by_cases he : b.Get (translate p d) = Piece.Empty
        · rw [if_pos he] at h ⊢; exact h
        · rw [if_neg he] at h ⊢
          exact ih f' _ _ _ (by omega) h

theorem findCapturesAux_some (b : Board) (a : Piece) (d : Position) :
    ∀ (fuel : Nat) (p : Position) (acc : List Position),
      p.valid = true →
      ((d.x = 1 ∧ 9 ≤ (fuel : Int) + p.x) ∨ (d.x = -1 ∧ p.x ≤ (fuel : Int)) ∨
       (d.y = 1 ∧ 9 ≤ (fuel : Int) + p.y) ∨ (d.y = -1 ∧ p.y ≤ (fuel : Int))) →
      ∃ r, findCapturesAux b a d p acc fuel = some r := by
  intro fuel
  induction fuel with
  | zero =>
    intro p acc hp hbound
    rw [valid_iff] at hp
    exfalso
    rcases hbound with ⟨_, h⟩ | ⟨_, h⟩ | ⟨_, h⟩ | ⟨_, h⟩ <;> push_cast at h <;> omega
  | succ f ih =>
    intro p acc hp hbound
    simp only [findCapturesAux]
    by_cases hv : (translate p d).valid = false
    · rw [if_pos hv]; exact ⟨[], rfl⟩
    · rw [if_neg hv]
      have hv' : (translate p d).valid = true := by
        revert hv; cases (translate p d).valid <;> simp
      by_cases ha : b.Get (translate p d) = a
      · rw [if_pos ha]; exact ⟨acc, rfl⟩
      · rw [if_neg ha]
        by_cases he : b.Get (translate p d) = Piece.Empty
        · rw [if_pos he]; exact ⟨[], rfl⟩
        · rw [if_neg he]
          apply ih (translate p d) (acc ++ [translate p d]) hv'
          rcases hbound with ⟨hc, h⟩ | ⟨hc, h⟩ | ⟨hc, h⟩ | ⟨hc, h⟩
          · exact Or.inl ⟨hc, by simp only [translate]; push_cast; omega⟩
          · exact Or.inr (Or.inl ⟨hc, by simp only [translate]; push_cast; omega⟩)
          · exact Or.inr (Or.inr (Or.inl ⟨hc, by simp only [translate]; push_cast; omega⟩))
          · exact Or.inr (Or.inr (Or.inr ⟨hc, by simp only [translate]; push_cast; omega⟩))

theorem dirs_bound_start {d : Position} (hd : d ∈ dirs) {t : Position}
    (ht : t.valid = true) :
    (d.x = 1 ∧ 9 ≤ ((8 : Nat) : Int) + t.x) ∨ (d.x = -1 ∧ t.x ≤ ((8 : Nat) : Int)) ∨
    (d.y = 1 ∧ 9 ≤ ((8 : Nat) : Int) + t.y) ∨ (d.y = -1 ∧ t.y ≤ ((8 : Nat) : Int)) := by
  rw [valid_iff] at ht
  fin_cases hd <;> simp <;> omega

end Othello

namespace Othello

theorem runList_zero (t d : Position) : runList t d 0 = [] := by
  simp [runList]

theorem runList_succ (t d : Position) (n : Nat) :
    runList t d (n + 1) = runList t d n ++ [ray t d (n + 1)] := by
  simp [runList, List.range_succ]

theorem findCapturesAux_run (b : Board) (m : Move) (d : Position)
    (ha : m.As ≠ Piece.Empty) (n : Nat) (hgr : GoodRun b m d n) :
    ∀ (rest j fuel : Nat), j + rest = n → rest + 1 ≤ fuel →
      findCapturesAux b m.As d (ray m.Where d j) (runList m.Where d j) fuel =
        some (runList m.Where d n) := by
  obtain ⟨hn, hrun, hval, hterm⟩ := hgr
  intro rest
  induction rest with
  | zero =>
    intro j fuel hj hf
    obtain rfl : j = n := by omega
    obtain ⟨f, rfl⟩ : ∃ f, fuel = f + 1 := ⟨fuel - 1, by omega⟩
    simp only [findCapturesAux]
    rw [translate_ray]
    rw [if_neg (by rw [hval]; simp), if_pos hterm]
  | succ r ih =>
    intro j fuel hj hf
    obtain ⟨f, rfl⟩ : ∃ f, fuel = f + 1 := ⟨fuel - 1, by omega⟩
    have hjn : j < n := by omega
    have hk := hrun j hjn
    simp only [findCapturesAux]
    rw [translate_ray]
    rw [if_neg (by rw [hk.1]; simp)]
    rw [if_neg (show ¬(b.Get (ray m.Where d (j + 1)) = m.As) from by
      rw [hk.2]; exact opp_ne_self ha)]
    rw [if_neg (show ¬(b.Get (ray m.Where d (j + 1)) = Piece.Empty) from by
      rw [hk.2]; exact opp_ne_empty ha)]
    rw [← runList_succ]
    exact ih (j + 1) f (by omega) (by omega)

theorem findCapturesAux_nil (b : Board) (m : Move) (d : Position)
    (ha : m.As ≠ Piece.Empty) (hd : d ∈ dirs) (ht : m.Where.valid = true)
    (hno : ¬ ∃ n, GoodRun b m d n) :
    ∀ (fuel j : Nat), 9 ≤ fuel + j →
      (∀ k < j, (ray m.Where d (k + 1)).valid = true ∧
        b.Get (ray m.Where d (k + 1)) = m.As.Opposite) →
      findCapturesAux b m.As d (ray m.Where d j) (runList m.Where d j) fuel = some [] := by
  intro fuel
  induction fuel with
  | zero =>
    intro j h9 hinv
    exfalso
    have h7 := (hinv 7 (by omega)).1
    have := ray_valid_bound hd ht h7
    omega
  | succ f ih =>
    intro j h9 hinv
    simp only [findCapturesAux]
    rw [translate_ray]
    by_cases hv : (ray m.Where d (j + 1)).valid = false
    · rw [if_pos hv]
    · rw [if_neg hv]
      have hv' : (ray m.Where d (j + 1)).valid = true := by
        revert hv; cases (ray m.Where d (j + 1)).valid <;> simp
      by_cases hA : b.Get (ray m.Where d (j + 1)) = m.As
      · rw [if_pos hA]
        cases j with
        | zero => simp [runList]
        | succ j' =>
          exact absurd ⟨j' + 1, ⟨Nat.succ_le_succ (Nat.zero_le _),
            fun k hk => hinv k hk, hv', hA⟩⟩ hno
      · rw [if_neg hA]
        by_cases hE : b.Get (ray m.Where d (j + 1)) = Piece.Empty
        · rw [if_pos hE]
        · rw [if_neg hE]
          rw [← runList_succ]
          apply ih (j + 1) (by omega)
          intro k hk
          rcases Nat.lt_succ_iff_lt_or_eq.mp hk with h | h
          · exact hinv k h
          · subst h
            exact ⟨hv', (eq_opp_iff ha).mpr ⟨hA, hE⟩⟩

theorem findCaptures_eq_runList {b : Board} {m : Move} {d : Position}
    (ha : m.As ≠ Piece.Empty) (hd : d ∈ dirs) (ht : m.Where.valid = true)
    {n : Nat} (hgr : GoodRun b m d n) :
    findCaptures b m d = runList m.Where d n := by
  have hb : n + 1 ≤ 7 := ray_valid_bound hd ht hgr.2.2.1
  have h := findCapturesAux_run b m d ha n hgr n 0 9 (by omega) (by omega)
  rw [ray_zero, runList_zero] at h
  rw [findCaptures, h]
  rfl

theorem findCaptures_eq_nil {b : Board} {m : Move} {d : Position}
    (ha : m.As ≠ Piece.Empty) (hd : d ∈ dirs) (ht : m.Where.valid = true)
    (hno : ¬ ∃ n, GoodRun b m d n) :
    findCaptures b m d = [] := by
  have h := findCapturesAux_nil b m d ha hd ht hno 9 0 (by omega)
    (fun k hk => absurd hk (by omega))
  rw [ray_zero, runList_zero] at h
  rw [findCaptures, h]
  rfl

end Othello

namespace Othello

theorem mem_runList {t d : Position} {n : Nat} {p : Position} :
    p ∈ runList t d n ↔ ∃ k, 1 ≤ k ∧ k ≤ n ∧ p = ray t d k := by
  simp only [runList, List.mem_map, List.mem_range]
  constructor
  · rintro ⟨k, hk, rfl⟩
    exact ⟨k + 1, by omega, by omega, rfl⟩
  · rintro ⟨k, h1, h2, rfl⟩
    exact ⟨k - 1, by omega, by congr 1; omega⟩

/-- C1: for every board, non-pass move with a valid target, and direction,
the capture scan returns exactly the contiguous run of opponent-colored
cells from the target outward when that run is terminated by the mover's
own color; it returns the empty list when no such terminated run exists
(off-board, Empty cell), and in particular when the immediate neighbor
already holds the mover's own color (zero discs are never captured). -/
theorem findCaptures_correct (b : Board) (m : Move) (d : Position)
    (ht : m.Where.valid = true) (ha : m.As ≠ Piece.Empty) (hd : d ∈ dirs) :
    (∀ n, GoodRun b m d n → findCaptures b m d = runList m.Where d n) ∧
    ((¬ ∃ n, GoodRun b m d n) → findCaptures b m d = []) ∧
    ((ray m.Where d 1).valid = true → b.Get (ray m.Where d 1) = m.As →
      findCaptures b m d = []) := by
  refine ⟨fun n hgr => findCaptures_eq_runList ha hd ht hgr,
    fun hno => findCaptures_eq_nil ha hd ht hno, fun hv1 hA1 => ?_⟩
  apply findCaptures_eq_nil ha hd ht
  rintro ⟨n, hn, hrun, -, -⟩
  have h0 := (hrun 0 (by omega)).2
  rw [hA1] at h0
  exact opp_ne_self ha h0.symm

/-- Witness for C1 at the scenario of spec §8: Black at (4,4), White at
(5,4), Black to move at (6,4); direction (-1,0) captures exactly (5,4). -/
theorem findCaptures_correct_witness :
    ((⟨6, 4⟩ : Position).valid = true ∧ (Piece.Black ≠ Piece.Empty) ∧
      (⟨-1, 0⟩ : Position) ∈ dirs ∧
      GoodRun scenarioBoard ⟨⟨6, 4⟩, Piece.Black⟩ ⟨-1, 0⟩ 1) ∧
    findCaptures scenarioBoard ⟨⟨6, 4⟩, Piece.Black⟩ ⟨-1, 0⟩ =
      runList ⟨6, 4⟩ ⟨-1, 0⟩ 1 :=
  ⟨by decide, (findCaptures_correct scenarioBoard ⟨⟨6, 4⟩, Piece.Black⟩ ⟨-1, 0⟩
    (by decide) (by decide) (by decide)).1 1 (by decide)⟩

theorem findCaptures_facts {b : Board} {m : Move} {d : Position}
    (ha : m.As ≠ Piece.Empty) (hd : d ∈ dirs) (ht : m.Where.valid = true) :
    (findCaptures b m d).Nodup ∧
    ∀ p ∈ findCaptures b m d, p.valid = true ∧ b.Get p = m.As.Opposite ∧
      p ≠ m.Where ∧ ∃ k, 1 ≤ k ∧ p = ray m.Where d k := by
  by_cases hex : ∃ n, GoodRun b m d n
  · obtain ⟨n, hgr⟩ := hex
    rw [findCaptures_eq_runList ha hd ht hgr]
    constructor
    · apply List.Nodup.map
      · intro k1 k2 hk
        have := ray_inj hd hk
        omega
      · exact List.nodup_range n
    · intro p hp
      rw [mem_runList] at hp
      obtain ⟨k, h1, h2, rfl⟩ := hp
      obtain ⟨hn, hrun, -, -⟩ := hgr
      have hk := hrun (k - 1) (by omega)
      have hke : k - 1 + 1 = k := by omega
      rw [hke] at hk
      exact ⟨hk.1, hk.2, ray_ne_start hd h1, k, h1, rfl⟩
  · rw [findCaptures_eq_nil ha hd ht hex]
    exact ⟨List.nodup_nil, fun p hp => absurd hp (List.not_mem_nil p)⟩

theorem findCaptures_disjoint {b : Board} {m : Move}
    (ha : m.As ≠ Piece.Empty) (ht : m.Where.valid = true)
    {d1 d2 : Position} (hd1 : d1 ∈ dirs) (hd2 : d2 ∈ dirs) (hne : d1 ≠ d2) :
    ∀ p, p ∈ findCaptures b m d1 → p ∈ findCaptures b m d2 → False := by
  intro p h1 h2
  obtain ⟨-, -, -, k1, hk1, rfl⟩ := (findCaptures_facts ha hd1 ht).2 p h1
  obtain ⟨-, -, -, k2, hk2, he⟩ := (findCaptures_facts ha hd2 ht).2 _ h2
  exact hne (ray_cross hd1 hd2 hk1 hk2 he)

end Othello

namespace Othello

/-- C10: from any valid target and any of the eight directions the capture
scan leaves the board (or stops at an own-colored or Empty cell) within 8
steps: fuel 8 already yields a result, so the trailing
`panic("impossible")` (fuel exhaustion) is unreachable, and `findCaptures`
returns that same result. -/
theorem findCapturesAux_terminates (b : Board) (m : Move) (d : Position)
    (ht : m.Where.valid = true) (hd : d ∈ dirs) :
    ∃ r, findCapturesAux b m.As d m.Where [] 8 = some r ∧ findCaptures b m d = r := by
  obtain ⟨r, hr⟩ := findCapturesAux_some b m.As d 8 m.Where [] ht (dirs_bound_start hd ht)
  refine ⟨r, hr, ?_⟩
  rw [findCaptures, findCapturesAux_mono b m.As d 8 9 _ _ _ (by omega) hr]
  rfl

/-- Witness for C10 at a concrete board, move and direction. -/
theorem findCapturesAux_terminates_witness :
    ((⟨6, 4⟩ : Position).valid = true ∧ (⟨1, 1⟩ : Position) ∈ dirs) ∧
    ∃ r, findCapturesAux scenarioBoard Piece.Black ⟨1, 1⟩ ⟨6, 4⟩ [] 8 = some r ∧
      findCaptures scenarioBoard ⟨⟨6, 4⟩, Piece.Black⟩ ⟨1, 1⟩ = r :=
  ⟨by decide, findCapturesAux_terminates scenarioBoard ⟨⟨6, 4⟩, Piece.Black⟩ ⟨1, 1⟩
    (by decide) (by decide)⟩

theorem foldl_append_eq {α β : Type} (g : α → List β) :
    ∀ (l : List α) (init : List β),
      l.foldl (fun acc d => acc ++ g d) init = init ++ (l.map g).flatten := by
  intro l
  induction l with
  | nil => intro init; simp
  | cons a l ih =>
    intro init
    simp only [List.foldl_cons, List.map_cons, List.flatten_cons]
    rw [ih, List.append_assoc]

theorem tryMove_captures_eq (b : Board) (m : Move) :
    dirs.foldl (fun acc d => acc ++ findCaptures b m d) [] = allCaptures b m := by
  rw [foldl_append_eq]
  rfl

theorem tryMove_eq (b : Board) (m : Move) :
    tryMove b m = if b.Get m.Where ≠ Piece.Empty then .error .occupied
      else if (allCaptures b m).length < 1 then .error .noCaptures
      else .ok (allCaptures b m) := by
  simp only [tryMove, tryMove_captures_eq]

/-- C4: for every non-pass move with a valid target, `tryMove` fails iff
the target cell is occupied or the union of captures over the eight
directions is empty; on success it returns exactly that union (and, being
a pure function of the board here, mutates nothing). -/
theorem tryMove_correct (b : Board) (m : Move) (ht : m.Where.valid = true) :
    ((∃ e, tryMove b m = .error e) ↔
      (b.Get m.Where ≠ Piece.Empty ∨ allCaptures b m = [])) ∧
    (∀ caps, tryMove b m = .ok caps →
      b.Get m.Where = Piece.Empty ∧ caps = allCaptures b m ∧ caps ≠ []) := by
  rw [tryMove_eq]
  by_cases hocc : b.Get m.Where ≠ Piece.Empty
  · rw [if_pos hocc]
    refine ⟨⟨fun _ => Or.inl hocc, fun _ => ⟨.occupied, rfl⟩⟩, fun caps h => ?_⟩
    exact absurd h (by simp)
  · rw [if_neg hocc]
    by_cases hlen : (allCaptures b m).length < 1
    · rw [if_pos hlen]
      have hnil : allCaptures b m = [] := List.length_eq_zero.mp (by omega)
      refine ⟨⟨fun _ => Or.inr hnil, fun _ => ⟨.noCaptures, rfl⟩⟩, fun caps h => ?_⟩
      exact absurd h (by simp)
    · rw [if_neg hlen]
      constructor
      · constructor
        · rintro ⟨e, he⟩
          exact absurd he (by simp)
        · rintro (h | h)
          · exact absurd h hocc
          · rw [h] at hlen
            simp at hlen
      · rintro caps h
        rw [Except.ok.injEq] at h
        subst h
        refine ⟨not_not.mp hocc, rfl, fun hnil => ?_⟩
        rw [hnil] at hlen
        simp at hlen

/-- Witness for C4 at the empty board: the move at (1,1) captures nothing
and fails. -/
theorem tryMove_correct_witness :
    ((⟨1, 1⟩ : Position).valid = true) ∧
    (((∃ e, tryMove emptyBoard ⟨⟨1, 1⟩, Piece.Black⟩ = .error e) ↔
      (emptyBoard.Get ⟨1, 1⟩ ≠ Piece.Empty ∨
        allCaptures emptyBoard ⟨⟨1, 1⟩, Piece.Black⟩ = [])) ∧
    (∀ caps, tryMove emptyBoard ⟨⟨1, 1⟩, Piece.Black⟩ = .ok caps →
      emptyBoard.Get ⟨1, 1⟩ = Piece.Empty ∧
        caps = allCaptures emptyBoard ⟨⟨1, 1⟩, Piece.Black⟩ ∧ caps ≠ [])) :=
  ⟨by decide, tryMove_correct emptyBoard ⟨⟨1, 1⟩, Piece.Black⟩ (by decide)⟩

end Othello

namespace Othello

theorem mem_allCaptures {b : Board} {m : Move} {p : Position} :
    p ∈ allCaptures b m ↔ ∃ d ∈ dirs, p ∈ findCaptures b m d := by
  simp only [allCaptures, List.mem_flatten, List.mem_map]
  constructor
  · rintro ⟨l, ⟨d, hd, rfl⟩, hp⟩
    exact ⟨d, hd, hp⟩
  · rintro ⟨d, hd, hp⟩
    exact ⟨findCaptures b m d, ⟨d, hd, rfl⟩, hp⟩

theorem allCaptures_facts {b : Board} {m : Move}
    (ha : m.As ≠ Piece.Empty) (ht : m.Where.valid = true) :
    (allCaptures b m).Nodup ∧
    ∀ p ∈ allCaptures b m, p.valid = true ∧ b.Get p = m.As.Opposite ∧ p ≠ m.Where := by
  constructor
  · rw [allCaptures, List.nodup_flatten]
    constructor
    · intro l hl
      rw [List.mem_map] at hl
      obtain ⟨d, hd, rfl⟩ := hl
      exact (findCaptures_facts ha hd ht).1
    · rw [List.pairwise_map]
      have hnd : dirs.Nodup := by decide
      apply List.Pairwise.imp_of_mem ?_ hnd
      intro d1 d2 h1 h2 hne p hp1 hp2
      exact findCaptures_disjoint ha ht h1 h2 hne p hp1 hp2
  · intro p hp
    rw [mem_allCaptures] at hp
    obtain ⟨d, hd, hp⟩ := hp
    obtain ⟨h1, h2, h3, -⟩ := (findCaptures_facts ha hd ht).2 p hp
    exact ⟨h1, h2, h3⟩

theorem tryMove_ok_elim {b : Board} {m : Move} {caps : List Position}
    (h : tryMove b m = .ok caps) :
    b.Get m.Where = Piece.Empty ∧ caps = allCaptures b m ∧ caps ≠ [] := by
  rw [tryMove_eq] at h
  by_cases hocc : b.Get m.Where ≠ Piece.Empty
  · rw [if_pos hocc] at h
    exact absurd h (by simp)
  · rw [if_neg hocc] at h
    by_cases hlen : (allCaptures b m).length < 1
    · rw [if_pos hlen] at h
      exact absurd h (by simp)
    · rw [if_neg hlen] at h
      rw [Except.ok.injEq] at h
      subst h
      refine ⟨not_not.mp hocc, rfl, fun hn => ?_⟩
      rw [hn] at hlen
      simp at hlen

theorem filter_setAt_self (b : Board) (p : Position) (pc : Piece) :
    (Finset.univ.filter fun c : Fin 8 × Fin 8 => (b.setAt p pc).Pieces c.1 c.2 = pc) =
      insert (posCell p) (Finset.univ.filter fun c : Fin 8 × Fin 8 => b.Pieces c.1 c.2 = pc) := by
  ext c
  simp only [Finset.mem_filter, Finset.mem_insert, Finset.mem_univ, true_and]
  constructor
  · intro h
    by_cases hc : c = posCell p
    · exact Or.inl hc
    · right
      simp only [Board.setAt] at h
      rw [if_neg] at h
      · exact h
      · rintro ⟨h1, h2⟩
        exact hc (Prod.ext h1 h2)
  · intro h
    simp only [Board.setAt]
    rcases h with rfl | h
    · rw [if_pos ⟨rfl, rfl⟩]
    · by_cases hc : c.1 = coordIdx p.y ∧ c.2 = coordIdx p.x
      · rw [if_pos hc]
      · rw [if_neg hc]
        exact h

theorem filter_setAt_other (b : Board) (p : Position) (pc pc' : Piece) (hne : pc' ≠ pc) :
    (Finset.univ.filter fun c : Fin 8 × Fin 8 => (b.setAt p pc).Pieces c.1 c.2 = pc') =
      (Finset.univ.filter fun c : Fin 8 × Fin 8 => b.Pieces c.1 c.2 = pc').erase (posCell p) := by
  ext c
  simp only [Finset.mem_filter, Finset.mem_erase, Finset.mem_univ, true_and]
  constructor
  · intro h
    by_cases hc : c = posCell p
    · exfalso
      subst hc
      simp only [Board.setAt] at h
      rw [if_pos ⟨rfl, rfl⟩] at h
      exact hne h.symm
    · simp only [Board.setAt] at h
      rw [if_neg] at h
      · exact ⟨hc, h⟩
      · rintro ⟨h1, h2⟩
        exact hc (Prod.ext h1 h2)
  · rintro ⟨hc, h⟩
    simp only [Board.setAt]
    rw [if_neg]
    · exact h
    · rintro ⟨h1, h2⟩
      exact hc (Prod.ext h1 h2)

theorem count_set_new {b : Board} {p : Position} {pc : Piece} (hold : b.Get p ≠ pc) :
    countPieces (b.setAt p pc) pc = countPieces b pc + 1 := by
  unfold countPieces
  rw [filter_setAt_self, Finset.card_insert_of_not_mem]
  simp only [Finset.mem_filter, Finset.mem_univ, true_and]
  exact hold

theorem count_set_back {b : Board} {p : Position} {pc src : Piece}
    (hold : b.Get p = src) (hsrc : src ≠ pc) :
    countPieces b src = countPieces (b.setAt p pc) src + 1 := by
  unfold countPieces
  rw [filter_setAt_other b p pc src hsrc, Finset.card_erase_of_mem]
  · have hpos : 0 < (Finset.univ.filter fun c : Fin 8 × Fin 8 => b.Pieces c.1 c.2 = src).card := by
      apply Finset.card_pos.mpr
      exact ⟨posCell p, by simp only [Finset.mem_filter, Finset.mem_univ, true_and]; exact hold⟩
    omega
  · simp only [Finset.mem_filter, Finset.mem_univ, true_and]
    exact hold

theorem count_set_same {b : Board} {p : Position} {pc pc' : Piece}
    (hne1 : pc' ≠ pc) (hne2 : b.Get p ≠ pc') :
    countPieces (b.setAt p pc) pc' = countPieces b pc' := by
  unfold countPieces
  rw [filter_setAt_other b p pc pc' hne1, Finset.erase_eq_of_not_mem]
  simp only [Finset.mem_filter, Finset.mem_univ, true_and]
  exact hne2

end Othello

namespace Othello

theorem Get_mk_next (b : Board) (x : Piece) (q : Position) :
    ({ b with Next := x } : Board).Get q = b.Get q := rfl

theorem count_mk_next (b : Board) (x : Piece) (pc : Piece) :
    countPieces { b with Next := x } pc = countPieces b pc := rfl

theorem Next_foldl_setAt (pc : Piece) :
    ∀ (L : List Position) (b : Board),
      (L.foldl (fun bb p => bb.setAt p pc) b).Next = b.Next := by
  intro L
  induction L with
  | nil => intro b; rfl
  | cons r L ih => intro b; rw [List.foldl_cons, ih]; rfl

theorem Get_foldl_frame (pc : Piece) :
    ∀ (L : List Position) (b : Board) (q : Position),
      (∀ p ∈ L, posCell p ≠ posCell q) →
      (L.foldl (fun bb p => bb.setAt p pc) b).Get q = b.Get q := by
  intro L
  induction L with
  | nil => intro b q _; rfl
  | cons r L ih =>
    intro b q hcells
    rw [List.foldl_cons, ih _ _ (fun p hp => hcells p (List.mem_cons_of_mem r hp))]
    rw [Get_setAt, if_neg]
    intro h
    exact hcells r (List.mem_cons_self r L) h.symm

theorem Get_foldl_hit (pc : Piece) :
    ∀ (L : List Position) (b : Board) (q : Position),
      (∃ p ∈ L, posCell p = posCell q) →
      (L.foldl (fun bb p => bb.setAt p pc) b).Get q = pc := by
  intro L
  induction L with
  | nil =>
    rintro b q ⟨p, hp, -⟩
    exact absurd hp (List.not_mem_nil p)
  | cons r L ih =>
    rintro b q ⟨p, hp, hcell⟩
    rw [List.foldl_cons]
    rcases List.mem_cons.mp hp with rfl | hpL
    · by_cases hex : ∃ p2 ∈ L, posCell p2 = posCell q
      · exact ih _ _ hex
      · rw [Get_foldl_frame pc L _ q (fun p2 hp2 hc => hex ⟨p2, hp2, hc⟩)]
        rw [Get_setAt, if_pos hcell.symm]
    · exact ih _ _ ⟨p, hpL, hcell⟩

theorem count_foldl_new (pc : Piece) :
    ∀ (L : List Position) (b : Board), L.Nodup →
      (∀ p ∈ L, p.valid = true ∧ b.Get p ≠ pc) →
      countPieces (L.foldl (fun bb p => bb.setAt p pc) b) pc = countPieces b pc + L.length := by
  intro L
  induction L with
  | nil => intro b _ _; simp
  | cons r L ih =>
    intro b hnd hinv
    have hr := hinv r (List.mem_cons_self r L)
    rw [List.nodup_cons] at hnd
    rw [List.foldl_cons, List.length_cons, ih (b.setAt r pc) hnd.2 ?_, count_set_new hr.2]
    · omega
    · intro p hp
      have hpL := hinv p (List.mem_cons_of_mem r hp)
      refine ⟨hpL.1, ?_⟩
      rw [Get_setAt, if_neg]
      · exact hpL.2
      · intro hcell
        exact hnd.1 ((posCell_inj p r hpL.1 hr.1 hcell) ▸ hp)

theorem count_foldl_back (pc src : Piece) (hsrc : src ≠ pc) :
    ∀ (L : List Position) (b : Board), L.Nodup →
      (∀ p ∈ L, p.valid = true ∧ b.Get p = src) →
      countPieces b src =
        countPieces (L.foldl (fun bb p => bb.setAt p pc) b) src + L.length := by
  intro L
  induction L with
  | nil => intro b _ _; simp
  | cons r L ih =>
    intro b hnd hinv
    have hr := hinv r (List.mem_cons_self r L)
    rw [List.nodup_cons] at hnd
    rw [List.foldl_cons, List.length_cons]
    have hstep := count_set_back hr.2 hsrc
    have hrest := ih (b.setAt r pc) hnd.2 ?_
    · omega
    · intro p hp
      have hpL := hinv p (List.mem_cons_of_mem r hp)
      refine ⟨hpL.1, ?_⟩
      rw [Get_setAt, if_neg]
      · exact hpL.2
      · intro hcell
        exact hnd.1 ((posCell_inj p r hpL.1 hr.1 hcell) ▸ hp)

end Othello

namespace Othello

theorem pass_false_valid {p : Position} (h : p.Pass = false) : p.valid = true := by
  rw [Position.Pass] at h
  revert h
  cases p.valid <;> simp

/-- C2: applying a legal non-pass move flips the target cell and every
captured cell to the mover's color, changes no other cell, and advances
`Next` to the opposite side; the mover's disc count grows by exactly
1 + #captures, the opponent's shrinks by #captures, and the total disc
count does not decrease. -/
theorem Exec_legal (b : Board) (m : Move) (caps : List Position)
    (hpass : m.Where.Pass = false) (ha : m.As ≠ Piece.Empty)
    (hok : tryMove b m = .ok caps) :
    (Exec b m).2 = none ∧
    (Exec b m).1.Get m.Where = m.As ∧
    (∀ p ∈ caps, (Exec b m).1.Get p = m.As) ∧
    (∀ q, q.valid = true → q ≠ m.Where → q ∉ caps → (Exec b m).1.Get q = b.Get q) ∧
    (Exec b m).1.Next = b.Next.Opposite ∧
    countPieces (Exec b m).1 m.As = countPieces b m.As + 1 + caps.length ∧
    countPieces b m.As.Opposite = countPieces (Exec b m).1 m.As.Opposite + caps.length ∧
    countPieces b Piece.Black + countPieces b Piece.White ≤
      countPieces (Exec b m).1 Piece.Black + countPieces (Exec b m).1 Piece.White := by
  have ht : m.Where.valid = true := pass_false_valid hpass
  obtain ⟨hEmpty, hcapsEq, -⟩ := tryMove_ok_elim hok
  have hcnd : caps.Nodup := hcapsEq ▸ (@allCaptures_facts b m ha ht).1
  have hcv : ∀ p ∈ caps, p.valid = true ∧ b.Get p = m.As.Opposite ∧ p ≠ m.Where := by
    rw [hcapsEq]
    exact (@allCaptures_facts b m ha ht).2
  have hLnd : (caps ++ [m.Where]).Nodup := by
    rw [List.nodup_append]
    refine ⟨hcnd, List.nodup_singleton _, ?_⟩
    intro p hp hp1
    rw [List.mem_singleton] at hp1
    exact (hcv p hp).2.2 hp1
  have hreal : realMove b m =
      .ok ((caps ++ [m.Where]).foldl (fun bb p => bb.setAt p m.As) b) := by
    rw [realMove, hok]
  have hexec : Exec b m =
      ({ (caps ++ [m.Where]).foldl (fun bb p => bb.setAt p m.As) b with
          Next := ((caps ++ [m.Where]).foldl (fun bb p => bb.setAt p m.As) b).Next.Opposite },
        none) := by
    rw [Exec, if_pos hpass, hreal]
  have hsplit : (caps ++ [m.Where]).foldl (fun bb p => bb.setAt p m.As) b =
      (caps.foldl (fun bb p => bb.setAt p m.As) b).setAt m.Where m.As := by
    rw [List.foldl_append]
    rfl
  have hGet_t : (caps.foldl (fun bb p => bb.setAt p m.As) b).Get m.Where = b.Get m.Where := by
    apply Get_foldl_frame
    intro p hp hcell
    exact (hcv p hp).2.2 (posCell_inj p m.Where (hcv p hp).1 ht hcell)
  have h1 : (Exec b m).2 = none := by rw [hexec]
  have h2 : (Exec b m).1.Get m.Where = m.As := by
    rw [hexec]
    show ((caps ++ [m.Where]).foldl (fun bb p => bb.setAt p m.As) b).Get m.Where = m.As
    exact Get_foldl_hit m.As _ b m.Where
      ⟨m.Where, List.mem_append_right _ (List.mem_singleton_self _), rfl⟩
  have h3 : ∀ p ∈ caps, (Exec b m).1.Get p = m.As := by
    intro p hp
    rw [hexec]
    show ((caps ++ [m.Where]).foldl (fun bb p => bb.setAt p m.As) b).Get p = m.As
    exact Get_foldl_hit m.As _ b p ⟨p, List.mem_append_left _ hp, rfl⟩
  have h4 : ∀ q, q.valid = true → q ≠ m.Where → q ∉ caps →
      (Exec b m).1.Get q = b.Get q := by
    intro q hqv hq1 hq2
    rw [hexec]
    show ((caps ++ [m.Where]).foldl (fun bb p => bb.setAt p m.As) b).Get q = b.Get q
    apply Get_foldl_frame
    intro p hp hcell
    rw [List.mem_append] at hp
    rcases hp with hp | hp
    · have : p = q := posCell_inj p q (hcv p hp).1 hqv hcell
      exact hq2 (this ▸ hp)
    · rw [List.mem_singleton] at hp
      subst hp
      exact hq1 (posCell_inj q m.Where hqv ht hcell.symm)
  have h5 : (Exec b m).1.Next = b.Next.Opposite := by
    rw [hexec]
    show ((caps ++ [m.Where]).foldl (fun bb p => bb.setAt p m.As) b).Next.Opposite =
      b.Next.Opposite
    rw [Next_foldl_setAt]
  have h6 : countPieces (Exec b m).1 m.As = countPieces b m.As + 1 + caps.length := by
    rw [hexec]
    show countPieces ((caps ++ [m.Where]).foldl (fun bb p => bb.setAt p m.As) b) m.As =
      countPieces b m.As + 1 + caps.length
    rw [count_foldl_new m.As (caps ++ [m.Where]) b hLnd ?_, List.length_append]
    · simp
      omega
    · intro p hp
      rw [List.mem_append] at hp
      rcases hp with hp | hp
      · refine ⟨(hcv p hp).1, ?_⟩
        rw [(hcv p hp).2.1]
        exact opp_ne_self ha
      · rw [List.mem_singleton] at hp
        subst hp
        refine ⟨ht, ?_⟩
        rw [hEmpty]
        exact Ne.symm ha
  have h7 : countPieces b m.As.Opposite =
      countPieces (Exec b m).1 m.As.Opposite + caps.length := by
    rw [hexec]
    show countPieces b m.As.Opposite =
      countPieces ((caps ++ [m.Where]).foldl (fun bb p => bb.setAt p m.As) b) m.As.Opposite +
        caps.length
    rw [hsplit]
    rw [count_set_same (opp_ne_self ha) (by rw [hGet_t, hEmpty]; exact Ne.symm (opp_ne_empty ha))]
    exact count_foldl_back m.As m.As.Opposite (opp_ne_self ha) caps b hcnd
      (fun p hp => ⟨(hcv p hp).1, (hcv p hp).2.1⟩)
  refine ⟨h1, h2, h3, h4, h5, h6, h7, ?_⟩
  cases hAs : m.As with
  | Empty => exact absurd hAs ha
  | Black =>
    rw [hAs] at h6 h7
    simp only [Piece.Opposite] at h7
    omega
  | White =>
    rw [hAs] at h6 h7
    simp only [Piece.Opposite] at h7
    omega

/-- Witness for C2 at the scenario of spec §8: Black plays (6,4) and
captures exactly (5,4). -/
theorem Exec_legal_witness :
    ((⟨6, 4⟩ : Position).Pass = false ∧ (Piece.Black ≠ Piece.Empty) ∧
      tryMove scenarioBoard ⟨⟨6, 4⟩, Piece.Black⟩ = .ok [⟨5, 4⟩]) ∧
    ((Exec scenarioBoard ⟨⟨6, 4⟩, Piece.Black⟩).2 = none ∧
      (Exec scenarioBoard ⟨⟨6, 4⟩, Piece.Black⟩).1.Get ⟨6, 4⟩ = Piece.Black ∧
      (∀ p ∈ [(⟨5, 4⟩ : Position)],
        (Exec scenarioBoard ⟨⟨6, 4⟩, Piece.Black⟩).1.Get p = Piece.Black) ∧
      (∀ q, q.valid = true → q ≠ ⟨6, 4⟩ → q ∉ [(⟨5, 4⟩ : Position)] →
        (Exec scenarioBoard ⟨⟨6, 4⟩, Piece.Black⟩).1.Get q = scenarioBoard.Get q) ∧
      (Exec scenarioBoard ⟨⟨6, 4⟩, Piece.Black⟩).1.Next = Piece.Black.Opposite ∧
      countPieces (Exec scenarioBoard ⟨⟨6, 4⟩, Piece.Black⟩).1 Piece.Black =
        countPieces scenarioBoard Piece.Black + 1 + 1 ∧
      countPieces scenarioBoard Piece.Black.Opposite =
        countPieces (Exec scenarioBoard ⟨⟨6, 4⟩, Piece.Black⟩).1 Piece.Black.Opposite + 1 ∧
      countPieces scenarioBoard Piece.Black + countPieces scenarioBoard Piece.White ≤
        countPieces (Exec scenarioBoard ⟨⟨6, 4⟩, Piece.Black⟩).1 Piece.Black +
          countPieces (Exec scenarioBoard ⟨⟨6, 4⟩, Piece.Black⟩).1 Piece.White) :=
  ⟨⟨by decide, by decide, by decide⟩,
    Exec_legal scenarioBoard ⟨⟨6, 4⟩, Piece.Black⟩ [⟨5, 4⟩]
      (by decide) (by decide) (by decide)⟩

end Othello

namespace Othello

/-- C9: whenever `Exec` reports an error (occupied target, no captures, or
illegal pass) the board is unchanged: no cell is flipped and `Next` keeps
its value. -/
theorem Exec_error_frame (b : Board) (m : Move) (e : IllegalMove)
    (h : (Exec b m).2 = some e) : (Exec b m).1 = b := by
  rw [Exec] at h ⊢
  by_cases hpass : m.Where.Pass = false
  · rw [if_pos hpass] at h ⊢
    cases hr : realMove b m with
    | error e2 => rfl
    | ok b1 =>
      rw [hr] at h
      simp at h
  · rw [if_neg hpass] at h ⊢
    by_cases hv : (ValidMoves b).length > 0
    · rw [if_pos hv]
    · rw [if_neg hv] at h
      simp at h

/-- Witness for C9: playing onto the occupied cell (4,4) of the scenario
board fails and leaves the board intact. -/
theorem Exec_error_frame_witness :
    ((Exec scenarioBoard ⟨⟨4, 4⟩, Piece.Black⟩).2 = some IllegalMove.occupied) ∧
    (Exec scenarioBoard ⟨⟨4, 4⟩, Piece.Black⟩).1 = scenarioBoard :=
  ⟨by decide, Exec_error_frame scenarioBoard ⟨⟨4, 4⟩, Piece.Black⟩
    IllegalMove.occupied (by decide)⟩

/-- C7: a pass move fails with an IllegalMove error iff `ValidMoves` is
non-empty; a legal pass (zero legal moves) flips `Next` and leaves every
cell of the grid unchanged. -/
theorem Exec_pass (b : Board) (m : Move) (hpass : m.Where.Pass = true) :
    ((Exec b m).2 ≠ none ↔ ValidMoves b ≠ []) ∧
    (ValidMoves b = [] →
      (Exec b m).1.Pieces = b.Pieces ∧ (Exec b m).1.Next = b.Next.Opposite ∧
        (Exec b m).2 = none) := by
  have hp2 : ¬ (m.Where.Pass = false) := by rw [hpass]; simp
  rw [Exec, if_neg hp2]
  by_cases hv : (ValidMoves b).length > 0
  · rw [if_pos hv]
    constructor
    · constructor
      · intro _ hnil
        rw [hnil] at hv
        simp at hv
      · intro _
        simp
    · intro hnil
      rw [hnil] at hv
      simp at hv
  · rw [if_neg hv]
    have hnil : ValidMoves b = [] := List.length_eq_zero.mp (by omega)
    refine ⟨?_, fun _ => ⟨rfl, rfl, rfl⟩⟩
    constructor
    · intro h
      exact absurd rfl h
    · intro h
      exact absurd hnil h

/-- Witness for C7: on the empty board (no legal moves) a pass succeeds. -/
theorem Exec_pass_witness :
    ((⟨0, 0⟩ : Position).Pass = true ∧ ValidMoves emptyBoard = []) ∧
    (((Exec emptyBoard ⟨⟨0, 0⟩, Piece.Black⟩).2 ≠ none ↔ ValidMoves emptyBoard ≠ []) ∧
      (ValidMoves emptyBoard = [] →
        (Exec emptyBoard ⟨⟨0, 0⟩, Piece.Black⟩).1.Pieces = emptyBoard.Pieces ∧
        (Exec emptyBoard ⟨⟨0, 0⟩, Piece.Black⟩).1.Next = emptyBoard.Next.Opposite ∧
        (Exec emptyBoard ⟨⟨0, 0⟩, Piece.Black⟩).2 = none)) :=
  ⟨⟨by decide, by decide⟩, Exec_pass emptyBoard ⟨⟨0, 0⟩, Piece.Black⟩ (by decide)⟩

end Othello

namespace Othello

theorem foldl_acc {α β : Type} (f : List β → α → List β) (g : α → List β)
    (hf : ∀ acc x, f acc x = acc ++ g x) :
    ∀ (l : List α) (init : List β), l.foldl f init = init ++ (l.map g).flatten := by
  intro l
  induction l with
  | nil => intro init; simp
  | cons a l ih =>
    intro init
    rw [List.foldl_cons, hf, ih, List.map_cons, List.flatten_cons, List.append_assoc]

theorem ValidMoves_eq (b : Board) :
    ValidMoves b =
      (nums18.map (fun y => (nums18.map (fun x => movesAt b y x)).flatten)).flatten := by
  have hin : ∀ (y : Int) (init : List Move),
      nums18.foldl (fun acc2 x =>
        match tryMove b ⟨⟨x, y⟩, b.Next⟩ with
        | .ok _ => acc2 ++ [(⟨⟨x, y⟩, b.Next⟩ : Move)]
        | .error _ => acc2) init =
        init ++ (nums18.map (fun x => movesAt b y x)).flatten := by
    intro y init
    apply foldl_acc
    intro acc x
    rw [movesAt]
    cases h : tryMove b ⟨⟨x, y⟩, b.Next⟩ <;> simp
  rw [ValidMoves]
  rw [foldl_acc _ (fun y => (nums18.map (fun x => movesAt b y x)).flatten) (fun acc y => hin y acc)]
  simp

theorem movesAt_eq (b : Board) (y x : Int) :
    movesAt b y x =
      if legalAt b ⟨x, y⟩ then [(⟨⟨x, y⟩, b.Next⟩ : Move)] else [] := by
  rw [movesAt, legalAt]
  cases h : tryMove b ⟨⟨x, y⟩, b.Next⟩ <;> simp [exceptOk]

theorem filter_flatten {α : Type} (P : α → Bool) :
    ∀ L : List (List α), L.flatten.filter P = (L.map (fun l => l.filter P)).flatten := by
  intro L
  induction L with
  | nil => rfl
  | cons l L ih =>
    simp only [List.flatten_cons, List.map_cons, List.filter_append, ih]

theorem mem_nums18 {a : Int} : a ∈ nums18 ↔ 1 ≤ a ∧ a ≤ 8 := by
  simp [nums18]
  omega

theorem mem_allPositionsRowMajor {p : Position} :
    p ∈ allPositionsRowMajor ↔ p.valid = true := by
  rw [valid_iff]
  simp only [allPositionsRowMajor, List.mem_flatten, List.mem_map]
  constructor
  · rintro ⟨l, ⟨y, hy, rfl⟩, hp⟩
    rw [List.mem_map] at hp
    obtain ⟨x, hx, rfl⟩ := hp
    rw [mem_nums18] at hx hy
    exact ⟨hx, hy⟩
  · rintro ⟨hx, hy⟩
    refine ⟨nums18.map (fun x => (⟨x, p.y⟩ : Position)), ⟨p.y, mem_nums18.mpr hy, rfl⟩, ?_⟩
    rw [List.mem_map]
    exact ⟨p.x, mem_nums18.mpr hx, rfl⟩

theorem rowWhere (b : Board) (y : Int) :
    ∀ xs : List Int,
      ((xs.map (fun x => movesAt b y x)).flatten).map (fun mv => mv.Where) =
        (xs.map (fun x => (⟨x, y⟩ : Position))).filter (fun p => legalAt b p) := by
  intro xs
  induction xs with
  | nil => rfl
  | cons a xs ih =>
    simp only [List.map_cons, List.flatten_cons, List.map_append, List.filter_cons]
    rw [movesAt_eq]
    cases h : legalAt b ⟨a, y⟩ <;> simp [h, ih]

end Othello

namespace Othello

/-- C5: `ValidMoves` returns exactly the positions where the side to move
may legally place, in row-major order (y outer, x inner, both 1..8); every
returned move carries the side to move and passes `tryMove` with at least
one capture, and the list is non-empty whenever a legal placement
exists. -/
theorem ValidMoves_correct (b : Board) :
    ((ValidMoves b).map (fun mv => mv.Where) =
      allPositionsRowMajor.filter (fun p => legalAt b p)) ∧
    (∀ mv ∈ ValidMoves b, mv.As = b.Next ∧
      ∃ caps, tryMove b mv = .ok caps ∧ 1 ≤ caps.length) ∧
    ((∃ p : Position, p.valid = true ∧ legalAt b p = true) → ValidMoves b ≠ []) := by
  have hmain : (ValidMoves b).map (fun mv => mv.Where) =
      allPositionsRowMajor.filter (fun p => legalAt b p) := by
    rw [ValidMoves_eq, allPositionsRowMajor]
    rw [List.map_flatten, filter_flatten]
    rw [List.map_map, List.map_map]
    congr 1
    apply List.map_congr_left
    intro y _
    simp only [Function.comp]
    exact rowWhere b y nums18
  have hmem : ∀ mv ∈ ValidMoves b, mv.As = b.Next ∧
      ∃ caps, tryMove b mv = .ok caps ∧ 1 ≤ caps.length := by
    intro mv hmv
    rw [ValidMoves_eq] at hmv
    rw [List.mem_flatten] at hmv
    obtain ⟨row, hrow, hmv⟩ := hmv
    rw [List.mem_map] at hrow
    obtain ⟨y, hy, rfl⟩ := hrow
    rw [List.mem_flatten] at hmv
    obtain ⟨cell, hcell, hmv⟩ := hmv
    rw [List.mem_map] at hcell
    obtain ⟨x, hx, rfl⟩ := hcell
    rw [movesAt] at hmv
    cases h : tryMove b ⟨⟨x, y⟩, b.Next⟩ with
    | error e =>
      rw [h] at hmv
      exact absurd hmv (List.not_mem_nil mv)
    | ok caps =>
      rw [h] at hmv
      rw [List.mem_singleton] at hmv
      subst hmv
      refine ⟨rfl, caps, h, ?_⟩
      have hne := (tryMove_ok_elim h).2.2
      cases caps with
      | nil => exact absurd rfl hne
      | cons c cs => simp
  refine ⟨hmain, hmem, ?_⟩
  rintro ⟨p, hpv, hpl⟩ hnil
  have hmap : (ValidMoves b).map (fun mv => mv.Where) = [] := by rw [hnil]; rfl
  rw [hmain] at hmap
  have hpmem : p ∈ allPositionsRowMajor.filter (fun p2 => legalAt b p2) :=
    List.mem_filter.mpr ⟨mem_allPositionsRowMajor.mpr hpv, hpl⟩
  rw [hmap] at hpmem
  exact absurd hpmem (List.not_mem_nil p)

end Othello

namespace Othello

theorem drop_cons_int :
    ∀ (S : List Int) (i : Nat) (s : Int) (rest : List Int), S.drop i = s :: rest →
      i < S.length ∧ S.getD i 0 = s ∧ S.drop (i + 1) = rest := by
  intro S
  induction S with
  | nil =>
    intro i s rest h
    rw [List.drop_nil] at h
    exact absurd h (by simp)
  | cons a S ih =>
    intro i s rest h
    cases i with
    | zero =>
      rw [List.drop_zero] at h
      obtain ⟨rfl, rfl⟩ := (List.cons.injEq a S s rest).mp h
      exact ⟨by simp, rfl, rfl⟩
    | succ i =>
      rw [List.drop_succ_cons] at h
      obtain ⟨h1, h2, h3⟩ := ih i s rest h
      refine ⟨by simpa using Nat.succ_lt_succ h1, by simpa using h2, ?_⟩
      rw [List.drop_succ_cons]
      exact h3

theorem bestScan_spec (gt : Int → Int → Bool)
    (hirr : ∀ a, gt a a = false)
    (hgood : ∀ x y z : Int, gt x y = false → gt z y = true → gt z x = true)
    (hgood2 : ∀ x y z : Int, gt x y = false → gt z y = true → gt x z = false)
    (S : List Int) :
    ∀ (rest : List Int) (i idx : Nat) (m : Int),
      S.drop i = rest → idx < i → idx < S.length → S.getD idx 0 = m →
      (∀ j < i, gt (S.getD j 0) m = false) →
      (∀ j < idx, gt m (S.getD j 0) = true) →
      (bestScan gt rest i m idx < S.length ∧
       (∀ j < S.length, gt (S.getD j 0) (S.getD (bestScan gt rest i m idx) 0) = false) ∧
       (∀ j < bestScan gt rest i m idx, gt (S.getD (bestScan gt rest i m idx) 0) (S.getD j 0) = true)) := by
  intro rest
  induction rest with
  | nil =>
    intro i idx m hdrop hidx hidxlen hm hle hlt
    have hlen : S.length ≤ i := by
      have := congrArg List.length hdrop
      rw [List.length_drop] at this
      simp at this
      omega
    simp only [bestScan]
    rw [hm]
    refine ⟨hidxlen, ?_, hlt⟩
    intro j hj
    exact hle j (by omega)
  | cons s rest ih =>
    intro i idx m hdrop hidx hidxlen hm hle hlt
    obtain ⟨hilt, hsi, hdrop2⟩ := drop_cons_int S i s rest hdrop
    simp only [bestScan]
    by_cases hgt : gt s m = true
    · rw [if_pos hgt]
      apply ih i.succ i s hdrop2 (by omega) hilt hsi
      · intro j hj
        rcases Nat.lt_succ_iff_lt_or_eq.mp hj with hj | hj
        · exact hgood2 (S.getD j 0) m s (hle j hj) hgt
        · subst hj
          rw [hsi]
          exact hirr s
      · intro j hj
        exact hgood (S.getD j 0) m s (hle j hj) hgt
    · have hf : gt s m = false := by revert hgt; cases gt s m <;> simp
      rw [if_neg hgt]
      apply ih i.succ idx m hdrop2 (by omega) hidxlen hm
      · intro j hj
        rcases Nat.lt_succ_iff_lt_or_eq.mp hj with hj | hj
        · exact hle j hj
        · subst hj
          rw [hsi]
          exact hf
      · exact hlt

theorem getBest_spec_black (scores : List Int) (hne : scores ≠ []) :
    ∃ i : Nat, GetBestEvalIndex Piece.Black scores = (i : Int) ∧ i < scores.length ∧
      (∀ j < scores.length, scores.getD j 0 ≤ scores.getD i 0) ∧
      (∀ j < i, scores.getD j 0 < scores.getD i 0) := by
  cases scores with
  | nil => exact absurd rfl hne
  | cons s rest =>
    have h := bestScan_spec (fun a b => decide (a > b)) (by intro a; simp)
      (by intro x y z hxy hzy; simp only [decide_eq_false_iff_not, decide_eq_true_eq] at *; omega)
      (by intro x y z hxy hzy; simp only [decide_eq_false_iff_not, decide_eq_true_eq] at *; omega)
      (s :: rest) rest 1 0 s rfl (by omega) (by simp) rfl
      (by
        intro j hj
        obtain rfl : j = 0 := by omega
        simp)
      (by
        intro j hj
        exact absurd hj (by omega))
    refine ⟨bestScan (fun a b => decide (a > b)) rest 1 s 0, rfl, h.1, ?_, ?_⟩
    · intro j hj
      have h2 := h.2.1 j hj
      rw [decide_eq_false_iff_not] at h2
      omega
    · intro j hj
      have h2 := h.2.2 j hj
      rw [decide_eq_true_eq] at h2
      omega

theorem getBest_spec_min (pl : Piece) (hpl : pl ≠ Piece.Black)
    (scores : List Int) (hne : scores ≠ []) :
    ∃ i : Nat, GetBestEvalIndex pl scores = (i : Int) ∧ i < scores.length ∧
      (∀ j < scores.length, scores.getD i 0 ≤ scores.getD j 0) ∧
      (∀ j < i, scores.getD i 0 < scores.getD j 0) := by
  cases scores with
  | nil => exact absurd rfl hne
  | cons s rest =>
    have h := bestScan_spec (fun a b => decide (a < b)) (by intro a; simp)
      (by intro x y z hxy hzy; simp only [decide_eq_false_iff_not, decide_eq_true_eq] at *; omega)
      (by intro x y z hxy hzy; simp only [decide_eq_false_iff_not, decide_eq_true_eq] at *; omega)
      (s :: rest) rest 1 0 s rfl (by omega) (by simp) rfl
      (by
        intro j hj
        obtain rfl : j = 0 := by omega
        simp)
      (by
        intro j hj
        exact absurd hj (by omega))
    refine ⟨bestScan (fun a b => decide (a < b)) rest 1 s 0, ?_, h.1, ?_, ?_⟩
    · rw [GetBestEvalIndex, if_neg hpl]
    · intro j hj
      have h2 := h.2.1 j hj
      rw [decide_eq_false_iff_not] at h2
      omega
    · intro j hj
      have h2 := h.2.2 j hj
      rw [decide_eq_true_eq] at h2
      omega

/-- C6: `GetBestEvalIndex` returns -1 on an empty list; on a non-empty
list it returns, for Black, the index of the maximum attached score and,
for Light, the index of the minimum; among equal scores the earliest index
wins (every earlier score is strictly worse). -/
theorem GetBestEvalIndex_correct (scores : List Int) :
    (scores = [] → ∀ pl : Piece, GetBestEvalIndex pl scores = -1) ∧
    (scores ≠ [] → ∃ i : Nat, GetBestEvalIndex Piece.Black scores = (i : Int) ∧
      i < scores.length ∧
      (∀ j < scores.length, scores.getD j 0 ≤ scores.getD i 0) ∧
      (∀ j < i, scores.getD j 0 < scores.getD i 0)) ∧
    (scores ≠ [] → ∃ i : Nat, GetBestEvalIndex Piece.White scores = (i : Int) ∧
      i < scores.length ∧
      (∀ j < scores.length, scores.getD i 0 ≤ scores.getD j 0) ∧
      (∀ j < i, scores.getD i 0 < scores.getD j 0)) := by
  refine ⟨?_, fun hne => getBest_spec_black scores hne,
    fun hne => getBest_spec_min Piece.White (by decide) scores hne⟩
  rintro rfl pl
  rfl

end Othello

namespace Othello

theorem foldl_max_le : ∀ (l : List Int) (a : Int), a ≤ l.foldl max a := by
  intro l
  induction l with
  | nil => intro a; exact le_refl a
  | cons x l ih =>
    intro a
    rw [List.foldl_cons]
    exact le_trans (le_max_left a x) (ih (max a x))

theorem le_foldl_max_of_mem : ∀ (l : List Int) (x a : Int), x ∈ l → x ≤ l.foldl max a := by
  intro l
  induction l with
  | nil =>
    intro x a hx
    exact absurd hx (List.not_mem_nil x)
  | cons y l ih =>
    intro x a hx
    rw [List.foldl_cons]
    rcases List.mem_cons.mp hx with rfl | hx
    · exact le_trans (le_max_right a x) (foldl_max_le l (max a x))
    · exact ih x (max a y) hx

theorem foldl_max_mem : ∀ (l : List Int) (a : Int), l.foldl max a = a ∨ l.foldl max a ∈ l := by
  intro l
  induction l with
  | nil => intro a; exact Or.inl rfl
  | cons x l ih =>
    intro a
    rw [List.foldl_cons]
    rcases ih (max a x) with h | h
    · rcases max_choice a x with hc | hc
      · rw [h, hc]
        exact Or.inl rfl
      · rw [h, hc]
        exact Or.inr (List.mem_cons_self x l)
    · exact Or.inr (List.mem_cons_of_mem x h)

theorem maxOf_le {l : List Int} (hne : l ≠ []) : ∀ x ∈ l, x ≤ maxOf l := by
  cases l with
  | nil => exact absurd rfl hne
  | cons s rest =>
    intro x hx
    rw [maxOf]
    rcases List.mem_cons.mp hx with rfl | hx
    · exact foldl_max_le rest x
    · exact le_foldl_max_of_mem rest x s hx

theorem maxOf_mem {l : List Int} (hne : l ≠ []) : maxOf l ∈ l := by
  cases l with
  | nil => exact absurd rfl hne
  | cons s rest =>
    rw [maxOf]
    rcases foldl_max_mem rest s with h | h
    · rw [h]
      exact List.mem_cons_self s rest
    · exact List.mem_cons_of_mem s h

theorem getD_eq_getElem {l : List Int} {i : Nat} (hi : i < l.length) : l.getD i 0 = l[i] := by
  rw [List.getD_eq_getElem?_getD, List.getElem?_eq_getElem hi]
  rfl

theorem maxOf_eq_getD {l : List Int} {i : Nat} (hi : i < l.length)
    (hmax : ∀ j < l.length, l.getD j 0 ≤ l.getD i 0) : l.getD i 0 = maxOf l := by
  have hne : l ≠ [] := by
    intro h
    subst h
    simp at hi
  apply le_antisymm
  · apply maxOf_le hne
    rw [getD_eq_getElem hi]
    exact List.getElem_mem hi
  · have hm := maxOf_mem hne
    rw [List.mem_iff_getElem] at hm
    obtain ⟨j, hj, hjeq⟩ := hm
    have hgd : l.getD j 0 = maxOf l := by
      rw [getD_eq_getElem hj]
      exact hjeq
    rw [← hgd]
    exact hmax j hj

theorem foldl_min_le : ∀ (l : List Int) (a : Int), l.foldl min a ≤ a := by
  intro l
  induction l with
  | nil => intro a; exact le_refl a
  | cons x l ih =>
    intro a
    rw [List.foldl_cons]
    exact le_trans (ih (min a x)) (min_le_left a x)

theorem foldl_min_le_of_mem : ∀ (l : List Int) (x a : Int), x ∈ l → l.foldl min a ≤ x := by
  intro l
  induction l with
  | nil =>
    intro x a hx
    exact absurd hx (List.not_mem_nil x)
  | cons y l ih =>
    intro x a hx
    rw [List.foldl_cons]
    rcases List.mem_cons.mp hx with rfl | hx
    · exact le_trans (foldl_min_le l (min a x)) (min_le_right a x)
    · exact ih x (min a y) hx

theorem foldl_min_mem : ∀ (l : List Int) (a : Int), l.foldl min a = a ∨ l.foldl min a ∈ l := by
  intro l
  induction l with
  | nil => intro a; exact Or.inl rfl
  | cons x l ih =>
    intro a
    rw [List.foldl_cons]
    rcases ih (min a x) with h | h
    · rcases min_choice a x with hc | hc
      · rw [h, hc]
        exact Or.inl rfl
      · rw [h, hc]
        exact Or.inr (List.mem_cons_self x l)
    · exact Or.inr (List.mem_cons_of_mem x h)

theorem minOf_le {l : List Int} (hne : l ≠ []) : ∀ x ∈ l, minOf l ≤ x := by
  cases l with
  | nil => exact absurd rfl hne
  | cons s rest =>
    intro x hx
    rw [minOf]
    rcases List.mem_cons.mp hx with rfl | hx
    · exact foldl_min_le rest x
    · exact foldl_min_le_of_mem rest x s hx

theorem minOf_mem {l : List Int} (hne : l ≠ []) : minOf l ∈ l := by
  cases l with
  | nil => exact absurd rfl hne
  | cons s rest =>
    rw [minOf]
    rcases foldl_min_mem rest s with h | h
    · rw [h]
      exact List.mem_cons_self s rest
    · exact List.mem_cons_of_mem s h

theorem minOf_eq_getD {l : List Int} {i : Nat} (hi : i < l.length)
    (hmin : ∀ j < l.length, l.getD i 0 ≤ l.getD j 0) : l.getD i 0 = minOf l := by
  have hne : l ≠ [] := by
    intro h
    subst h
    simp at hi
  apply le_antisymm
  · have hm := minOf_mem hne
    rw [List.mem_iff_getElem] at hm
    obtain ⟨j, hj, hjeq⟩ := hm
    have hgd : l.getD j 0 = minOf l := by
      rw [getD_eq_getElem hj]
      exact hjeq
    rw [← hgd]
    exact hmin j hj
  · apply minOf_le hne
    rw [getD_eq_getElem hi]
    exact List.getElem_mem hi

end Othello

namespace Othello

theorem map_ne_nil {α β : Type} {l : List α} (f : α → β) (h : l ≠ []) : l.map f ≠ [] := by
  cases l with
  | nil => exact absurd rfl h
  | cons a l => simp

/-- C3: invoked as the program invokes it (the incoming `EvalScore` is the
board's own static evaluation — `getMove` calls `Eval` on the root and
`GenMovedBoards` on every child before recursing), `ExpandEvalTree`
computes the minimax value of §4.4: depth 0 gives the static evaluation,
a node with no legal moves its own static evaluation, and otherwise the
child value extremal for the side to move (Dark maximizes, Light
minimizes). -/
theorem ExpandEvalTree_minimax (b : Board) (depth : Nat) :
    ExpandEvalTree b b.Eval depth = minimaxSpec b depth := by
  induction depth generalizing b with
  | zero => rfl
  | succ d ih =>
    by_cases hm : ValidMoves b = []
    · simp [ExpandEvalTree, minimaxSpec, hm]
    · simp only [ExpandEvalTree, minimaxSpec]
      rw [if_neg hm, if_neg hm]
      have hscores : (ValidMoves b).map
          (fun m => ExpandEvalTree (GetMovedBoard b m) (GetMovedBoard b m).Eval d) =
          (ValidMoves b).map (fun m => minimaxSpec (GetMovedBoard b m) d) := by
        apply List.map_congr_left
        intro m _
        exact ih (GetMovedBoard b m)
      rw [hscores]
      have hvne : (ValidMoves b).map (fun m => minimaxSpec (GetMovedBoard b m) d) ≠ [] :=
        map_ne_nil _ hm
      by_cases hside : b.Next = Piece.Black
      · rw [hside]
        obtain ⟨i, hieq, hilen, hmax, -⟩ := getBest_spec_black _ hvne
        rw [hieq, if_neg (by omega), if_pos rfl]
        rw [Int.toNat_natCast]
        exact maxOf_eq_getD hilen hmax
      · obtain ⟨i, hieq, hilen, hmin, -⟩ := getBest_spec_min b.Next hside _ hvne
        rw [hieq, if_neg (by omega), if_neg hside]
        rw [Int.toNat_natCast]
        exact minOf_eq_getD hilen hmin

end Othello

namespace Othello

theorem foldl_add_eq {α : Type} (f : α → Int) :
    ∀ (l : List α) (e : Int), l.foldl (fun a x => a + f x) e = e + (l.map f).sum := by
  intro l
  induction l with
  | nil => intro e; simp
  | cons a l ih =>
    intro e
    rw [List.foldl_cons, ih, List.map_cons, List.sum_cons]
    ring

theorem foldl_funext {α β : Type} (f g : β → α → β)
    (h : ∀ acc x, f acc x = g acc x) :
    ∀ (l : List α) (init : β), l.foldl f init = l.foldl g init := by
  intro l
  induction l with
  | nil => intro init; rfl
  | cons a l ih =>
    intro init
    rw [List.foldl_cons, List.foldl_cons, h, ih]

theorem foldl_add_nested (f : Fin 8 → Fin 8 → Int) :
    (List.finRange 8).foldl
      (fun e y => (List.finRange 8).foldl (fun e2 x => e2 + f y x) e) 0 =
      ∑ y : Fin 8, ∑ x : Fin 8, f y x := by
  have hinner : ∀ (e : Int) (y : Fin 8),
      (List.finRange 8).foldl (fun e2 x => e2 + f y x) e = e + ∑ x : Fin 8, f y x := by
    intro e y
    rw [foldl_add_eq (f y) (List.finRange 8) e, Fin.sum_univ_def]
  rw [foldl_funext _ (fun e y => e + ∑ x : Fin 8, f y x) hinner (List.finRange 8) 0]
  rw [foldl_add_eq (fun y => ∑ x : Fin 8, f y x) (List.finRange 8) 0, Fin.sum_univ_def]
  simp

/-- C8 (amended): the positional evaluation is the sum over all 64 cells
of the fixed weight matrix, Dark cells contributing +weight, Light cells
-weight, Empty 0.  In the matrix the four corners carry the highest weight
(15); the lowest weight (0) sits on the four cells diagonally adjacent to
the corners, while the two cells adjacent to each corner along an edge
carry 2; the remaining edge cells carry 5, and the interior baseline is
1. -/
theorem GetEval_positional (b : Board) :
    (b.GetEval = ∑ y : Fin 8, ∑ x : Fin 8, scoreDelta (ScoreMap y x) (b.Pieces y x)) ∧
    (∀ y x : Fin 8, ScoreMap y x ≤ 15 ∧ 0 ≤ ScoreMap y x) ∧
    (∀ y x : Fin 8, ScoreMap y x =
      if (y.val = 0 ∨ y.val = 7) ∧ (x.val = 0 ∨ x.val = 7) then 15
      else if (y.val = 1 ∨ y.val = 6) ∧ (x.val = 1 ∨ x.val = 6) then 0
      else if ((y.val = 0 ∨ y.val = 7) ∧ (x.val = 1 ∨ x.val = 6)) ∨
          ((y.val = 1 ∨ y.val = 6) ∧ (x.val = 0 ∨ x.val = 7)) then 2
      else if y.val = 0 ∨ y.val = 7 ∨ x.val = 0 ∨ x.val = 7 then 5
      else 1) := by
  refine ⟨?_, by decide, by decide⟩
  rw [Board.GetEval]
  exact foldl_add_nested (fun y x => scoreDelta (ScoreMap y x) (b.Pieces y x))

/-- Counterexample to C8 as stated: the cell in row 1, column 1 (diagonally
adjacent to the corner) carries weight 0, strictly below the weight 2 of
the corner's two edge-adjacent cells (row 0, column 1) and (row 1, column
0) — the edge-adjacent cells do not carry the lowest weight of the
matrix. -/
theorem ScoreMap_cex :
    ScoreMap 0 1 = 2 ∧ ScoreMap 1 0 = 2 ∧ ScoreMap 1 1 = 0 ∧
      ScoreMap 1 1 < ScoreMap 0 1 := by decide

end Othello
